import Mathlib

/-!
Verification development for the batched ARIMA core of this repository
(`python/cuml/ts/batched_arima.pyx`, `python/cuml/ts/batched_kalman.pyx`, and
the `AutoARIMA` front-end).  Python/Cython functions are shallowly embedded as
Lean functions: float arrays become `List ℚ` (or `List ℝ` where transcendental
functions occur), exceptions become `Except String`, and NumPy slice
assignments become `List.ofFn` formulas over flat indices.
-/

namespace CumlTS

/-! ## ParameterCodec: `unpack` and `pack` from batched_arima.pyx (lines 225-263)

Python layout: each series' block has `num_parameters = d + p + q` slots,
`[mu?(gated on d>0), ar[p], ma[q]]`, and the batch vector is the concatenation
of the `nb` blocks. -/

/-- Per-series block `i` of the flat vector `x`: `x[i*np : (i+1)*np]`. -/
def sliceB {α : Type} (x : List α) (np i : ℕ) : List α :=
  (x.drop (i * np)).take np

/-- Result triple of `unpack`: mu per series, ar blocks, ma blocks. -/
structure UnpackedParams where
  mu : List ℚ
  ar : List (List ℚ)
  ma : List (List ℚ)
  deriving Repr, DecidableEq

/-- Embedding of `unpack(p, d, q, nb, x)` (batched_arima.pyx lines 225-241):
`mu[i] = x_i[0]` when `d>0` else `0`; `ar` gets `x_i[d:d+p]` appended only when
`p>0`; `ma` always gets `x_i[d+p:]`. -/
def unpack (p d q nb : ℕ) (x : List ℚ) : UnpackedParams :=
  { mu := List.ofFn (fun i : Fin nb =>
      if 0 < d then (sliceB x (d + p + q) i).getD 0 0 else 0)
  , ar := if 0 < p then
      List.ofFn (fun i : Fin nb => ((sliceB x (d + p + q) i).drop d).take p)
    else []
  , ma := List.ofFn (fun i : Fin nb => (sliceB x (d + p + q) i).drop (d + p)) }

/-- One series' block as written by `pack`: `xi = zeros(d+p+q)`, then
`xi[0] = mu_i` when `d>0`, `xi[d+j] = ar_i[j]` for `j<p`, and
`xi[d+p+j] = ma_i[j]` for `j<q`; unassigned slots stay `0`. -/
def packSeries (p d q : ℕ) (mu_i : ℚ) (ar_i ma_i : List ℚ) : List ℚ :=
  List.ofFn (fun j : Fin (d + p + q) =>
    if d ≤ j.val ∧ j.val < d + p then ar_i.getD (j.val - d) 0
    else if d + p ≤ j.val then ma_i.getD (j.val - d - p) 0
    else if 0 < d ∧ j.val = 0 then mu_i
    else 0)

/-- Embedding of `pack(p, d, q, nb, mu, ar, ma)` (batched_arima.pyx lines
243-263): concatenation of the per-series blocks. -/
def pack (p d q nb : ℕ) (mu : List ℚ) (ar ma : List (List ℚ)) : List ℚ :=
  (List.range nb).flatMap (fun i =>
    packSeries p d q (mu.getD i 0) (ar.getD i []) (ma.getD i []))

/-- Splitting a list of length `nb*np` into its `nb` blocks and concatenating
them back is the identity. -/
theorem flatMap_sliceB {α : Type} (nb np : ℕ) (x : List α) (hx : x.length = nb * np) :
    (List.range nb).flatMap (fun i => sliceB x np i) = x := by
  induction nb generalizing x with
  | zero =>
    simp at hx
    simp [hx]
  | succ n ih =>
    rw [List.range_succ_eq_map, List.flatMap_cons]
    have h1 : sliceB x np 0 = x.take np := by
      simp [sliceB]
    have h2 : (List.map Nat.succ (List.range n)).flatMap (fun i => sliceB x np i)
        = (List.range n).flatMap (fun i => sliceB (x.drop np) np i) := by
      rw [List.flatMap_map]
      refine List.flatMap_congr (fun i _ => ?_)
      simp only [Function.comp, sliceB, List.drop_drop]
      have h3 : Nat.succ i * np = np + i * np := by rw [Nat.succ_mul]; ring
      rw [h3]
    rw [h1, h2, ih (x.drop np) (by rw [List.length_drop, hx, Nat.succ_mul]; omega)]
    exact List.take_append_drop np x

/-- Rebuilding one block from its unpacked pieces restores the block, as long
as `d ≤ 1` (for `d = 2` the slot at index 1 is dropped by `unpack` and
zero-filled by `pack`). -/
theorem packSeries_slice (p d q : ℕ) (hd : d ≤ 1) (xi : List ℚ)
    (hlen : xi.length = d + p + q) :
    packSeries p d q (if 0 < d then xi.getD 0 0 else 0)
      ((xi.drop d).take p) (xi.drop (d + p)) = xi := by
  refine List.ext_getElem (by simp [packSeries, hlen]) (fun j h1 h2 => ?_)
  have hj : j < d + p + q := by simpa [packSeries] using h1
  simp only [packSeries, List.getElem_ofFn]
  by_cases har : d ≤ j ∧ j < d + p
  · rw [if_pos har]
    have hlt : j - d < ((xi.drop d).take p).length := by
      simp [List.length_take, List.length_drop, hlen]
      omega
    rw [List.getD_eq_getElem _ _ hlt, List.getElem_take, List.getElem_drop]
    have hdj : d + (j - d) = j := by omega
    congr 1
  · rw [if_neg har]
    by_cases hma : d + p ≤ j
    · rw [if_pos hma]
      have hlt : j - d - p < (xi.drop (d + p)).length := by
        simp [List.length_drop, hlen]
        omega
      rw [List.getD_eq_getElem _ _ hlt, List.getElem_drop]
      have hdj : d + p + (j - d - p) = j := by omega
      congr 1
    · rw [if_neg hma]
      have hd0 : 0 < d ∧ j = 0 := by omega
      obtain ⟨hdpos, rfl⟩ := hd0
      rw [if_pos ⟨hdpos, rfl⟩, if_pos hdpos]
      exact List.getD_eq_getElem xi 0 (by omega)

/-- The slice of a flat vector of `nb` blocks has full block length. -/
theorem length_sliceB {α : Type} (x : List α) (np nb i : ℕ) (hi : i < nb)
    (hx : x.length = nb * np) : (sliceB x np i).length = np := by
  simp only [sliceB, List.length_take, List.length_drop, hx]
  have : i * np + np ≤ nb * np := by
    calc i * np + np = (i + 1) * np := by ring
    _ ≤ nb * np := Nat.mul_le_mul_right np (by omega)
  omega

/-- C4 (amended): for every batch size `nb`, order `(p, d, q)` with `d ≤ 1`,
and flat vector `x` of length `nb*(d+p+q)`, `pack` applied to the result of
`unpack` returns `x` exactly, with the per-series field order
`[mu?(d), ar[p], ma[q]]` and per-series length `d+p+q`.  (The source has no
seasonal fields, and for `d = 2` the round trip drops slot 1; see the
counterexample.) -/
theorem claim_C4 (p q nb d : ℕ) (hd : d ≤ 1) (x : List ℚ)
    (hx : x.length = nb * (d + p + q)) :
    pack p d q nb (unpack p d q nb x).mu (unpack p d q nb x).ar
      (unpack p d q nb x).ma = x := by
  unfold pack
  have hcong : ∀ i ∈ List.range nb,
      packSeries p d q ((unpack p d q nb x).mu.getD i 0)
        ((unpack p d q nb x).ar.getD i []) ((unpack p d q nb x).ma.getD i [])
      = sliceB x (d + p + q) i := by
    intro i hi
    have hi' : i < nb := List.mem_range.mp hi
    have hmu : (unpack p d q nb x).mu.getD i 0
        = (if 0 < d then (sliceB x (d + p + q) i).getD 0 0 else 0) := by
      rw [unpack]
      rw [List.getD_eq_getElem _ _ (by simpa using hi'), List.getElem_ofFn]
    have har : (unpack p d q nb x).ar.getD i []
        = ((sliceB x (d + p + q) i).drop d).take p := by
      rw [unpack]
      by_cases hp : 0 < p
      · rw [if_pos hp, List.getD_eq_getElem _ _ (by simpa using hi'),
          List.getElem_ofFn]
      · have hp0 : p = 0 := by omega
        rw [if_neg hp, hp0]
        simp
    have hma : (unpack p d q nb x).ma.getD i []
        = (sliceB x (d + p + q) i).drop (d + p) := by
      rw [unpack]
      rw [List.getD_eq_getElem _ _ (by simpa using hi'), List.getElem_ofFn]
    rw [hmu, har, hma]
    exact packSeries_slice p d q hd _ (length_sliceB x (d + p + q) nb i hi' hx)
  rw [List.flatMap_congr hcong, flatMap_sliceB nb (d + p + q) x hx]

/-- C4 counterexample: at order `(p,d,q) = (0,2,0)` (difference order `d = 2`,
allowed by the claim's OrderSpec) with one series and `x = [5, 7]`, the round
trip returns `[5, 0]`, not `x`: `unpack` reads only slot 0 as `mu` and
discards slot 1, which `pack` then zero-fills. -/
theorem claim_C4_counterexample :
    pack 0 2 0 1 (unpack 0 2 0 1 [5, 7]).mu (unpack 0 2 0 1 [5, 7]).ar
        (unpack 0 2 0 1 [5, 7]).ma = [5, 0] ∧
      pack 0 2 0 1 (unpack 0 2 0 1 [5, 7]).mu (unpack 0 2 0 1 [5, 7]).ar
        (unpack 0 2 0 1 [5, 7]).ma ≠ [5, 7] := by
  constructor <;> decide

/-- C4 witness: concrete instance of the round trip at `(p,d,q) = (1,1,1)`,
two series. -/
theorem claim_C4_witness :
    pack 1 1 1 2 (unpack 1 1 1 2 [1, 2, 3, 4, 5, 6]).mu
      (unpack 1 1 1 2 [1, 2, 3, 4, 5, 6]).ar
      (unpack 1 1 1 2 [1, 2, 3, 4, 5, 6]).ma = [1, 2, 3, 4, 5, 6] :=
  claim_C4 1 1 2 1 (by decide) [1, 2, 3, 4, 5, 6] (by decide)

/-! ## AutoARIMA.fit parameter parsing (part_002, lines 93-100)

Python: `if s == 1: s = None`, then
`search_method = "css" if self.n_obs >= 100 and s >= 4 else "ml"` when
`search_method == "auto"`.  The seasonal period is `Option ℕ` (`none` models
Python `None`); Python's short-circuit `and` together with the dynamically
typed comparison `None >= 4` is modelled by `Except`: comparing `None` with an
int raises `TypeError`. -/

/-- Normalization at the top of `AutoARIMA.fit`: `s == 1` becomes `None`. -/
def normalize_s (s : Option ℕ) : Option ℕ :=
  if s = some 1 then none else s

/-- Evaluation of `"css" if n_obs >= 100 and s >= 4 else "ml"` with Python
semantics: `and` short-circuits, and `None >= 4` raises `TypeError`. -/
def auto_search_method (n_obs : ℕ) (s : Option ℕ) : Except String String :=
  if 100 ≤ n_obs then
    match s with
    | none => Except.error "TypeError: '>=' not supported between instances of 'NoneType' and 'int'"
    | some m => Except.ok (if 4 ≤ m then "css" else "ml")
  else Except.ok "ml"

/-- The search-method selection stage of `AutoARIMA.fit` (part_002 lines
97-100): normalize `s`, then resolve `search_method == "auto"`; any other
`search_method` value is kept unchanged. -/
def fit_select_method (n_obs : ℕ) (s : Option ℕ) (search_method : String) :
    Except String String :=
  if search_method = "auto" then auto_search_method n_obs (normalize_s s)
  else Except.ok search_method

/-- C6 (amended): with `search_method="auto"`, when the seasonal period is an
integer `m ≠ 1` the fast method is `"css"` iff `n_obs ≥ 100 and m ≥ 4`, and
`"ml"` otherwise; when `n_obs < 100` the result is `"ml"` for every `s`
(including `None`, never consulted).  When `s` is `None` (or `1`, normalized
to `None`) and `n_obs ≥ 100`, no method is set at all: a `TypeError` is
raised (see the counterexample). -/
theorem claim_C6 (n_obs : ℕ) :
    (∀ m : ℕ, m ≠ 1 →
      fit_select_method n_obs (some m) "auto"
        = Except.ok (if 100 ≤ n_obs ∧ 4 ≤ m then "css" else "ml")) ∧
    (n_obs < 100 → ∀ s : Option ℕ,
      fit_select_method n_obs s "auto" = Except.ok "ml") := by
  constructor
  · intro m hm
    have hnorm : normalize_s (some m) = some m := by simp [normalize_s, hm]
    by_cases h1 : 100 ≤ n_obs
    · by_cases h4 : 4 ≤ m
      · simp [fit_select_method, hnorm, auto_search_method, h1, h4]
      · simp [fit_select_method, hnorm, auto_search_method, h1, h4]
    · simp [fit_select_method, hnorm, auto_search_method, h1]
  · intro hlt s
    have h1 : ¬ 100 ≤ n_obs := by omega
    simp [fit_select_method, auto_search_method, h1]

/-- C6 counterexample: `n_obs = 100`, `s = None`, `search_method = "auto"`:
the code raises `TypeError` instead of setting the method to `"ml"` as the
claim's "in every other case" requires. -/
theorem claim_C6_counterexample :
    fit_select_method 100 none "auto"
      = Except.error "TypeError: '>=' not supported between instances of 'NoneType' and 'int'" ∧
    ∀ r : String, fit_select_method 100 none "auto" ≠ Except.ok r := by
  constructor
  · rfl
  · intro r h
    rw [show fit_select_method 100 none "auto"
        = Except.error "TypeError: '>=' not supported between instances of 'NoneType' and 'int'" from rfl] at h
    exact Except.noConfusion h

/-- C6 witness: a seasonal batch with `n_obs = 150`, `s = 4` selects `"css"`. -/
theorem claim_C6_witness :
    fit_select_method 150 (some 4) "auto"
      = Except.ok (if 100 ≤ 150 ∧ 4 ≤ 4 then "css" else "ml") :=
  (claim_C6 150).1 4 (by decide)

/-- C10: with `search_method="auto"` and at least 100 observations, a
non-seasonal `s` (`None`, or `1` which is normalized to `None`) makes the
comparison `s >= 4` raise a `TypeError` during parameter parsing (before any
model is fitted); the `"auto"` setting succeeds exactly when `s` is an
integer other than `1` or when fewer than 100 observations are given. -/
theorem claim_C10 (n_obs : ℕ) :
    (100 ≤ n_obs →
      fit_select_method n_obs none "auto"
          = Except.error "TypeError: '>=' not supported between instances of 'NoneType' and 'int'" ∧
        fit_select_method n_obs (some 1) "auto"
          = Except.error "TypeError: '>=' not supported between instances of 'NoneType' and 'int'") ∧
    (n_obs < 100 → ∀ s : Option ℕ,
      ∃ r : String, fit_select_method n_obs s "auto" = Except.ok r) ∧
    (∀ m : ℕ, m ≠ 1 →
      ∃ r : String, fit_select_method n_obs (some m) "auto" = Except.ok r) := by
  refine ⟨fun h100 => ?_, fun hlt s => ?_, fun m hm => ?_⟩
  · constructor <;>
      simp [fit_select_method, normalize_s, auto_search_method, h100]
  · have h1 : ¬ 100 ≤ n_obs := by omega
    exact ⟨"ml", by simp [fit_select_method, auto_search_method, h1]⟩
  · have hnorm : normalize_s (some m) = some m := by simp [normalize_s, hm]
    by_cases h1 : 100 ≤ n_obs
    · exact ⟨if 4 ≤ m then "css" else "ml",
        by simp [fit_select_method, hnorm, auto_search_method, h1]⟩
    · exact ⟨"ml", by simp [fit_select_method, hnorm, auto_search_method, h1]⟩

/-- C10 witness: at exactly 100 observations both non-seasonal spellings of
`s` raise, and `s = 4` succeeds. -/
theorem claim_C10_witness :
    (fit_select_method 100 none "auto"
        = Except.error "TypeError: '>=' not supported between instances of 'NoneType' and 'int'" ∧
      fit_select_method 100 (some 1) "auto"
        = Except.error "TypeError: '>=' not supported between instances of 'NoneType' and 'int'") ∧
    ∃ r : String, fit_select_method 100 (some 4) "auto" = Except.ok r :=
  ⟨(claim_C10 100).1 (by decide), (claim_C10 100).2.2 4 (by decide)⟩

/-! ## AutoARIMA grid search (part_002, lines 192-217) -/

/-- One candidate order as appended to `all_orders`:
`(p_, q_, P_, Q_, s_, k_)`. -/
structure CandidateOrder where
  p : ℕ
  q : ℕ
  P : ℕ
  Q : ℕ
  s : ℕ
  k : ℕ
  deriving Repr, DecidableEq

/-- Embedding of the candidate enumeration inside one `(d, D)` bucket of
`AutoARIMA.fit`: `k_ = 1 if d_ + D_ <= 1 else 0`; four nested loops
`range(start, max+1)`; the degenerate order with `p_+q_+P_+Q_+k_ == 0` is
skipped (`continue`); `s_ = s if (P_ + D_ + Q_) else 0`. -/
def grid_candidates (start_p max_p start_q max_q start_P max_P start_Q max_Q
    d D s : ℕ) : List CandidateOrder :=
  let k := if d + D ≤ 1 then 1 else 0
  (List.range' start_p (max_p + 1 - start_p)).flatMap fun p_ =>
  (List.range' start_q (max_q + 1 - start_q)).flatMap fun q_ =>
  (List.range' start_P (max_P + 1 - start_P)).flatMap fun P_ =>
  (List.range' start_Q (max_Q + 1 - start_Q)).flatMap fun Q_ =>
  if p_ + q_ + P_ + Q_ + k = 0 then []
  else [⟨p_, q_, P_, Q_, if P_ + D + Q_ ≠ 0 then s else 0, k⟩]

/-- C7: every candidate enumerated by the grid search has intercept `k = 1`
iff `d + D ≤ 1` (and `k = 0` otherwise), is not the degenerate all-zero order
(`p+q+P+Q+k ≠ 0`), and hence satisfies the OrderSpec invariant that `k = 1`
only occurs with `d + D ≤ 1`. -/
theorem claim_C7 (start_p max_p start_q max_q start_P max_P start_Q max_Q
    d D s : ℕ) (c : CandidateOrder)
    (hc : c ∈ grid_candidates start_p max_p start_q max_q start_P max_P
      start_Q max_Q d D s) :
    c.k = (if d + D ≤ 1 then 1 else 0) ∧
      c.p + c.q + c.P + c.Q + c.k ≠ 0 ∧
      (c.k = 1 → d + D ≤ 1) := by
  simp only [grid_candidates, List.mem_flatMap] at hc
  obtain ⟨p_, -, q_, -, P_, -, Q_, -, hmem⟩ := hc
  by_cases hz : p_ + q_ + P_ + Q_ + (if d + D ≤ 1 then 1 else 0) = 0
  · rw [if_pos hz] at hmem
    exact absurd hmem (List.not_mem_nil c)
  · rw [if_neg hz] at hmem
    have hceq : c = ⟨p_, q_, P_, Q_, if P_ + D + Q_ ≠ 0 then s else 0,
        if d + D ≤ 1 then 1 else 0⟩ := List.mem_singleton.mp hmem
    subst hceq
    refine ⟨rfl, hz, fun hk => ?_⟩
    have hk' : (if d + D ≤ 1 then 1 else 0) = 1 := hk
    by_cases hdD : d + D ≤ 1
    · exact hdD
    · rw [if_neg hdD] at hk'
      exact absurd hk' (by decide)

/-- C7 witness: a concrete candidate of a concrete grid (non-seasonal bucket
`d = 1`, `D = 0`, so `k = 1`) satisfies the invariant. -/
theorem claim_C7_witness :
    (⟨1, 0, 0, 0, 0, 1⟩ : CandidateOrder) ∈
        grid_candidates 0 1 0 1 0 0 0 0 1 0 0 ∧
      ((⟨1, 0, 0, 0, 0, 1⟩ : CandidateOrder).k = (if 1 + 0 ≤ 1 then 1 else 0) ∧
        (⟨1, 0, 0, 0, 0, 1⟩ : CandidateOrder).p +
            (⟨1, 0, 0, 0, 0, 1⟩ : CandidateOrder).q +
            (⟨1, 0, 0, 0, 0, 1⟩ : CandidateOrder).P +
            (⟨1, 0, 0, 0, 0, 1⟩ : CandidateOrder).Q +
            (⟨1, 0, 0, 0, 0, 1⟩ : CandidateOrder).k ≠ 0 ∧
        ((⟨1, 0, 0, 0, 0, 1⟩ : CandidateOrder).k = 1 → 1 + 0 ≤ 1)) :=
  ⟨by decide, claim_C7 0 1 0 1 0 0 0 0 1 0 0 ⟨1, 0, 0, 0, 0, 1⟩ (by decide)⟩

/-! ## Information criteria (batched_arima.pyx, lines 85-99 and 334-337) -/

/-- A `(p, d, q)` order tuple as held in `ARIMAModel.order`. -/
structure PDQ where
  p : ℕ
  d : ℕ
  q : ℕ
  deriving Repr, DecidableEq

/-- Embedding of `_model_complexity(order)` (lines 334-337): the number of
parameters `d + p + q` (mu + ar + ma). -/
def model_complexity (o : PDQ) : ℕ := o.d + o.p + o.q

/-- Embedding of the `ARIMAModel.bic` list comprehension (lines 85-91):
`-2*lli + log(len(y)) * _model_complexity(order[i])`, where `llb` is the
batched log-likelihood; `log_len_y` is the value of the transcendental factor
`np.log(len(y))` (the theorems instantiate it with `Real.log n`). -/
def bic_list (llb : List ℝ) (log_len_y : ℝ) (orders : List PDQ) : List ℝ :=
  List.ofFn (fun i : Fin llb.length =>
    -2 * llb.get i + log_len_y * (model_complexity (orders.getD i ⟨0, 0, 0⟩)))

/-- Embedding of the `ARIMAModel.aic` list comprehension (lines 93-99):
`-2*lli + 2 * _model_complexity(order[i])`. -/
def aic_list (llb : List ℝ) (orders : List PDQ) : List ℝ :=
  List.ofFn (fun i : Fin llb.length =>
    -2 * llb.get i + 2 * (model_complexity (orders.getD i ⟨0, 0, 0⟩)))

/-- C8: when BIC and AIC are computed from the same log-likelihood values
`llb`, their difference at every series `i` is exactly
`log(n) * k - 2 * k` with `n` the series length and `k` that series' model
complexity. -/
theorem claim_C8 (llb : List ℝ) (n : ℕ) (orders : List PDQ) (i : ℕ)
    (hi : i < llb.length) :
    (bic_list llb (Real.log n) orders).getD i 0 - (aic_list llb orders).getD i 0
      = Real.log n * (model_complexity (orders.getD i ⟨0, 0, 0⟩))
        - 2 * (model_complexity (orders.getD i ⟨0, 0, 0⟩)) := by
  rw [bic_list, aic_list,
    List.getD_eq_getElem _ _ (by simpa using hi),
    List.getD_eq_getElem _ _ (by simpa using hi),
    List.getElem_ofFn, List.getElem_ofFn]
  ring

/-- C8 witness: one series of length 5, order `(1,0,1)`, log-likelihood 0. -/
theorem claim_C8_witness :
    (bic_list [0] (Real.log (5 : ℕ)) [⟨1, 0, 1⟩]).getD 0 0
        - (aic_list [0] [⟨1, 0, 1⟩]).getD 0 0
      = Real.log (5 : ℕ) * (model_complexity ([(⟨1, 0, 1⟩ : PDQ)].getD 0 ⟨0, 0, 0⟩))
        - 2 * (model_complexity ([(⟨1, 0, 1⟩ : PDQ)].getD 0 ⟨0, 0, 0⟩)) :=
  claim_C8 [0] 5 [⟨1, 0, 1⟩] 0 (by decide)

/-! ## fit: optimizer outcome handling (batched_arima.pyx, lines 536-557)

After `batched_fmin_lbfgs_b` returns `(x, niter, flags)`, `fit` prints a
warning when any flag is nonzero and unconditionally builds the fitted
`ARIMAModel` from the last iterate `x` (through `batch_trans` and `unpack`);
no exception is raised on non-convergence.  The Jones transform runs in C++,
so the post-optimizer stage is parameterized by the transform `tr`. -/

/-- Result of the post-optimizer stage of `fit`: emitted warning lines plus
the fitted model's parameter groupings and iteration count. -/
structure FitOutcome where
  warnings : List String
  mu : List ℚ
  ar : List (List ℚ)
  ma : List (List ℚ)
  niter : ℕ
  deriving Repr, DecidableEq

/-- Embedding of `fit` lines 544-557: `if (flags != 0).any(): print(WARNING)`,
then `Tx = batch_trans(x)`, `mu, ar, ma = unpack(Tx)`, and the `ARIMAModel`
is built and returned.  The return type is `Except` to make any raising
control path explicit: this stage has none. -/
def fit_post (p d q nb : ℕ) (tr : List ℚ → List ℚ) (x : List ℚ) (niter : ℕ)
    (flags : List ℤ) : Except String FitOutcome :=
  let warnings :=
    if flags.any (fun f => f ≠ 0) then
      ["WARNING(`fit()`): Some batch members had optimizer problems."]
    else []
  let Tx := tr x
  let u := unpack p d q nb Tx
  Except.ok ⟨warnings, u.mu, u.ar, u.ma, niter⟩

/-- C9: whatever the per-series convergence flags are, the post-optimizer
stage of `fit` never raises: it returns a model whose parameters are unpacked
from the transformed last iterate `x`, and it emits a warning exactly when
some flag is nonzero. -/
theorem claim_C9 (p d q nb : ℕ) (tr : List ℚ → List ℚ) (x : List ℚ)
    (niter : ℕ) (flags : List ℤ) :
    ∃ w : List String,
      fit_post p d q nb tr x niter flags
          = Except.ok ⟨w, (unpack p d q nb (tr x)).mu,
              (unpack p d q nb (tr x)).ar, (unpack p d q nb (tr x)).ma, niter⟩ ∧
        (w ≠ [] ↔ ∃ f ∈ flags, f ≠ 0) := by
  refine ⟨if flags.any (fun f => f ≠ 0) then
      ["WARNING(`fit()`): Some batch members had optimizer problems."]
    else [], rfl, ?_⟩
  by_cases hf : flags.any (fun f => f ≠ 0)
  · rw [if_pos hf]
    simp only [List.any_eq_true, decide_eq_true_eq] at hf
    simpa using hf
  · rw [if_neg hf]
    simp only [List.any_eq_true, decide_eq_true_eq] at hf
    simpa using hf

/-! ## fit: batched initial-condition sanity check (batched_arima.pyx, lines
539-541)

`if ((np.isnan(x0).any()) or (np.isinf(x0).any())): raise FloatingPointError`.
Floats that can be NaN/Inf are modelled by `PyFloat`. -/

/-- A Python float: a finite value, NaN, or a signed infinity. -/
inductive PyFloat where
  | finite (q : ℚ)
  | nan
  | pinf
  | ninf
  deriving Repr, DecidableEq

/-- Model of `np.isnan` on one element. -/
def isnan : PyFloat → Bool
  | .nan => true
  | _ => false

/-- Model of `np.isinf` on one element (true for both signs). -/
def isinf : PyFloat → Bool
  | .pinf => true
  | .ninf => true
  | _ => false

/-- Embedding of the `fit` sanity check (lines 539-541): if any entry of the
whole batched initial vector `x0` is NaN or Inf, raise `FloatingPointError`;
otherwise pass `x0` on. -/
def fit_check_x0 (x0 : List PyFloat) : Except String (List PyFloat) :=
  if x0.any isnan || x0.any isinf then
    Except.error "FloatingPointError: Initial condition 'x0' has NaN or Inf."
  else Except.ok x0

/-- Embedding of `fit` from the sanity check onward (lines 539-557): check the
batched `x0`, run the optimizer on it, and post-process.  The optimizer
(`batched_fmin_lbfgs_b`, an external collaborator) is a parameter returning
`(x, niter, flags)`. -/
def fit_from_x0 (p d q nb : ℕ) (tr : List ℚ → List ℚ)
    (optimizer : List PyFloat → List ℚ × ℕ × List ℤ) (x0 : List PyFloat) :
    Except String FitOutcome :=
  match fit_check_x0 x0 with
  | Except.error e => Except.error e
  | Except.ok x0c =>
      fit_post p d q nb tr (optimizer x0c).1 (optimizer x0c).2.1
        (optimizer x0c).2.2

/-- C3 (amended): a NaN or Inf anywhere in the batched initial parameter
vector makes `fit` raise `FloatingPointError` for the whole batch: no series
is processed and no per-series marking happens, regardless of the optimizer. -/
theorem claim_C3 (p d q nb : ℕ) (tr : List ℚ → List ℚ)
    (optimizer : List PyFloat → List ℚ × ℕ × List ℤ) (x0 : List PyFloat)
    (hbad : ∃ v ∈ x0, isnan v = true ∨ isinf v = true) :
    fit_from_x0 p d q nb tr optimizer x0
      = Except.error "FloatingPointError: Initial condition 'x0' has NaN or Inf." := by
  have hcond : (x0.any isnan || x0.any isinf) = true := by
    rw [Bool.or_eq_true]
    obtain ⟨v, hv, hcase⟩ := hbad
    rcases hcase with hn | hi
    · exact Or.inl (List.any_eq_true.mpr ⟨v, hv, hn⟩)
    · exact Or.inr (List.any_eq_true.mpr ⟨v, hv, hi⟩)
  simp [fit_from_x0, fit_check_x0, hcond]

/-- C3 counterexample: a batch of two one-parameter series in which only the
first series' parameter is NaN.  The claim requires the second series to be
fitted; instead `fit` returns a batch-wide `FloatingPointError` carrying no
result for any series. -/
theorem claim_C3_counterexample :
    fit_from_x0 0 1 0 2 id (fun x0c => (x0c.map (fun _ => (0 : ℚ)), 0, [0, 0]))
        [PyFloat.nan, PyFloat.finite (1 / 2)]
      = Except.error "FloatingPointError: Initial condition 'x0' has NaN or Inf." := rfl

/-- C3 witness: an Inf in the single series of a batch of one triggers the
same batch-wide error. -/
theorem claim_C3_witness :
    fit_from_x0 1 1 1 1 id (fun _ => ([0, 0, 0], 0, [0]))
        [PyFloat.finite 1, PyFloat.pinf, PyFloat.finite 0]
      = Except.error "FloatingPointError: Initial condition 'x0' has NaN or Inf." :=
  claim_C3 1 1 1 1 id (fun _ => ([0, 0, 0], 0, [0]))
    [PyFloat.finite 1, PyFloat.pinf, PyFloat.finite 0]
    ⟨PyFloat.pinf, by decide, Or.inr (by decide)⟩

/-! ## ARIMAModel.predict_in_sample (batched_arima.pyx, lines 106-148) and
_fc_single (lines 152-175)

All NumPy operations involved act column-by-column, so the embedding is the
per-series (per-column) action on one series `y` with Kalman residual column
`vs` of length `nobs - d`. -/

/-- Dot product (`np.dot`) of rational vectors. -/
def dotQ (a b : List ℚ) : ℚ := (List.zipWith (· * ·) a b).sum

/-- One column of `np.diff(y, axis=0)`: `y[t+1] - y[t]`. -/
def npdiff (y : List ℚ) : List ℚ :=
  List.zipWith (fun a b => b - a) y y.tail

/-- The last `k` entries, NumPy `l[-k:]`. -/
def lastN (k : ℕ) (l : List ℚ) : List ℚ := l.drop (l.length - k)

/-- Embedding of `_fc_single` (lines 152-175) at `num_steps = 1`:
`y_[:p] = y_diff[-p:]`, `vs_[:q] = vs[-q:]`, and the single forecast value is
`mu*(1 - sum(ar)) + dot(ar, y_[0:p]) + dot(ma, vs_[0:q])`, each dot guarded by
`p > 0` resp. `q > 0`. -/
def fc_single1 (p q : ℕ) (mu : ℚ) (ar_params ma_params : List ℚ)
    (y_diff vs : List ℚ) : ℚ :=
  let y_ := if 0 < p then lastN p y_diff else []
  let vs_ := if 0 < q then lastN q vs else []
  mu * (1 - ar_params.sum)
    + (if 0 < p then dotQ ar_params y_ else 0)
    + (if 0 < q then dotQ ma_params vs_ else 0)

/-- Embedding of `ARIMAModel.predict_in_sample` (lines 106-148), one column:
for `d = 0`, `y_p = y - vs`; for `d = 1`, `y_p = y[0:-1] + (diff(y) - vs)`
extended by one forecast value `y[-1] + _fc_single(1, ...)`; for `d > 1` a
`NotImplementedError` is raised. -/
def predict_in_sample_series (p d q : ℕ) (mu : ℚ)
    (ar_params ma_params : List ℚ) (y vs : List ℚ) :
    Except String (List ℚ) :=
  match d with
  | 0 => Except.ok (List.zipWith (fun a b => a - b) y vs)
  | 1 =>
      let y_diff := npdiff y
      let predict := List.zipWith (fun a b => a - b) y_diff vs
      let y_p := List.zipWith (fun a b => a + b) y.dropLast predict
      let fc1 := fc_single1 p q mu ar_params ma_params y_diff vs
      Except.ok (y_p ++ [y.getD (y.length - 1) 0 + fc1])
  | _ + 2 => Except.error "NotImplementedError: Only support d==0,1"

/-- C2 (amended): the in-sample prediction of the source inserts no undefined
markers.  For `d = 0` it is `y - vs` elementwise.  For `d = 1` it has the full
length `nobs`; its entry at every position `t < nobs - 1` is the defined value
`y[t+1] - vs[t]` (the reconstruction is shifted one step, with nothing
undefined at positions before `lost_in_diff`), and its final entry is
`y[nobs-1]` plus a one-step forecast of the differenced series.  For every
`d ≥ 2` the call raises `NotImplementedError` instead of returning an array. -/
theorem claim_C2 (p q : ℕ) (mu : ℚ) (ar_params ma_params : List ℚ)
    (y vs : List ℚ) (hy : 1 ≤ y.length) (hvs : vs.length = y.length - 1) :
    predict_in_sample_series p 0 q mu ar_params ma_params y vs
        = Except.ok (List.zipWith (fun a b => a - b) y vs) ∧
    (∃ out : List ℚ,
      predict_in_sample_series p 1 q mu ar_params ma_params y vs
          = Except.ok out ∧
        out.length = y.length ∧
        (∀ t, t < y.length - 1 →
          out.getD t 0 = y.getD (t + 1) 0 - vs.getD t 0) ∧
        out.getD (y.length - 1) 0
          = y.getD (y.length - 1) 0
            + fc_single1 p q mu ar_params ma_params (npdiff y) vs) ∧
    (∀ d : ℕ, 2 ≤ d →
      predict_in_sample_series p d q mu ar_params ma_params y vs
        = Except.error "NotImplementedError: Only support d==0,1") := by
  have hdiff_len : (npdiff y).length = y.length - 1 := by
    simp [npdiff, List.length_zipWith, List.length_tail]
  refine ⟨rfl, ?_, ?_⟩
  · refine ⟨_, rfl, ?_, ?_, ?_⟩
    · simp [List.length_append, List.length_zipWith, List.length_dropLast,
        hdiff_len, hvs]
      omega
    · intro t ht
      have hyp_len : (List.zipWith (fun a b => a + b) y.dropLast
          (List.zipWith (fun a b => a - b) (npdiff y) vs)).length
          = y.length - 1 := by
        simp [List.length_zipWith, List.length_dropLast, hdiff_len, hvs]
      have ht1 : t < (List.zipWith (fun a b => a + b) y.dropLast
          (List.zipWith (fun a b => a - b) (npdiff y) vs)).length := by
        omega
      rw [List.getD_append _ _ _ _ ht1, List.getD_eq_getElem _ _ ht1,
        List.getElem_zipWith, List.getElem_zipWith,
        List.getElem_dropLast]
      have hdt : ∀ hh : t < (npdiff y).length,
          (npdiff y)[t] = y.getD (t + 1) 0 - y.getD t 0 := by
        intro hh
        simp only [npdiff, List.getElem_zipWith, List.getElem_tail]
        rw [List.getD_eq_getElem _ _ (by omega),
          List.getD_eq_getElem _ _ (by omega)]
      rw [hdt (by omega)]
      rw [List.getD_eq_getElem _ _ (by omega : t < y.length),
        List.getD_eq_getElem _ _ (by omega : t < vs.length)]
      ring
    · have hyp_len : (List.zipWith (fun a b => a + b) y.dropLast
          (List.zipWith (fun a b => a - b) (npdiff y) vs)).length
          = y.length - 1 := by
        simp [List.length_zipWith, List.length_dropLast, hdiff_len, hvs]
      rw [List.getD_append_right _ _ _ _ (by omega), hyp_len]
      simp
  · intro d hd
    match d, hd with
    | n + 2, _ => rfl

/-- C2 counterexample: for `d = 2` (inside the claim's `d ∈ {0,1,2}`) the
code raises `NotImplementedError`; no array of the requested shape with
undefined markers is returned. -/
theorem claim_C2_counterexample :
    predict_in_sample_series 0 2 0 0 [] [] [1, 2, 3] [5]
      = Except.error "NotImplementedError: Only support d==0,1" := rfl

/-- C2 witness: a two-point series with `d = 1`: position `0`, which lies
before `lost_in_diff = 1`, holds the defined value `y[1] - vs[0]`. -/
theorem claim_C2_witness :
    predict_in_sample_series 0 0 0 0 [] [] [1, 3] [(1 : ℚ) / 2]
        = Except.ok (List.zipWith (fun a b => a - b) [1, 3] [(1 : ℚ) / 2]) ∧
      (∃ out : List ℚ,
        predict_in_sample_series 0 1 0 0 [] [] [1, 3] [(1 : ℚ) / 2]
            = Except.ok out ∧
          out.length = ([1, 3] : List ℚ).length ∧
          (∀ t, t < ([1, 3] : List ℚ).length - 1 →
            out.getD t 0 = ([1, 3] : List ℚ).getD (t + 1) 0
              - [(1 : ℚ) / 2].getD t 0) ∧
          out.getD (([1, 3] : List ℚ).length - 1) 0
            = ([1, 3] : List ℚ).getD (([1, 3] : List ℚ).length - 1) 0
              + fc_single1 0 0 0 [] [] (npdiff [1, 3]) [(1 : ℚ) / 2]) ∧
      (∀ d : ℕ, 2 ≤ d →
        predict_in_sample_series 0 d 0 0 [] [] [1, 3] [(1 : ℚ) / 2]
          = Except.error "NotImplementedError: Only support d==0,1") :=
  claim_C2 0 0 0 [] [] [1, 3] [(1 : ℚ) / 2] (by decide) (by decide)

/-! ## ll_gf: batched finite-difference gradient (batched_arima.pyx,
lines 462-501)

`ll_f` (lines 449-460) forwards to the C++ `batched_loglike`; per design each
series' log-likelihood depends only on that series' own parameter block. -/

/-- The perturbation vector `fd` of `ll_gf`: `h` at slot `i`, zero
elsewhere. -/
def fd_at (np i : ℕ) (h : ℚ) : List ℚ :=
  List.ofFn (fun k : Fin np => if k.val = i then h else 0)

/-- `np.tile(fd, num_batches)`: the perturbation duplicated across the
batch. -/
def tile (nb : ℕ) (fd : List ℚ) : List ℚ :=
  (List.range nb).flatMap (fun _ => fd)

/-- Modelled from the spec: the C++ `batched_loglike` behind `ll_f` is not in
the sources; per the spec the objective "is separable across the batch", so
series `j`'s log-likelihood is an arbitrary function `L j` of series `j`'s own
parameter block alone. -/
def ll_f_sep (L : ℕ → List ℚ → ℚ) (nb np : ℕ) (x : List ℚ) : List ℚ :=
  List.ofFn (fun j : Fin nb => L j.val (sliceB x np j.val))

/-- Embedding of `ll_gf` (lines 462-501): for each parameter index
`i = m % num_parameters`, perturb `x` by `np.tile(fd, num_batches)`, take the
central difference of the two batched likelihood evaluations, and distribute
the batch result with `grad[i::num_parameters] = grad_i_b` (so
`grad[m] = grad_i_b[m / num_parameters]`; for `num_batches == 1` the scalar
branch coincides with this formula). -/
def ll_gf (llf : List ℚ → List ℚ) (num_batches num_parameters : ℕ)
    (x : List ℚ) (h : ℚ) : List ℚ :=
  List.ofFn (fun m : Fin x.length =>
    let i := m.val % num_parameters
    let fdph := tile num_batches (fd_at num_parameters i h)
    let ll_b_ph := llf (List.zipWith (· + ·) x fdph)
    let ll_b_mh := llf (List.zipWith (· - ·) x fdph)
    let grad_i_b := List.zipWith (fun a b => (a - b) / (2 * h)) ll_b_ph ll_b_mh
    grad_i_b.getD (m.val / num_parameters) 0)

/-- `tile` unfolds one copy at a time. -/
theorem tile_succ (nb : ℕ) (fd : List ℚ) : tile (nb + 1) fd = fd ++ tile nb fd := by
  rw [tile, List.range_succ_eq_map, List.flatMap_cons, List.flatMap_map]
  rfl

/-- Length of the tiled perturbation. -/
theorem length_tile (nb : ℕ) (fd : List ℚ) :
    (tile nb fd).length = nb * fd.length := by
  induction nb with
  | zero => simp [tile]
  | succ n ih =>
    rw [tile_succ, List.length_append, ih, Nat.succ_mul]
    omega

/-- Entry `j*np + t` of the tiled perturbation is entry `t` of `fd`. -/
theorem getD_tile (fd : List ℚ) (np nb j t : ℕ) (hfd : fd.length = np)
    (hj : j < nb) (ht : t < np) :
    (tile nb fd).getD (j * np + t) 0 = fd.getD t 0 := by
  induction j generalizing nb with
  | zero =>
    cases nb with
    | zero => omega
    | succ n =>
      rw [tile_succ]
      simp only [Nat.zero_mul, Nat.zero_add]
      exact List.getD_append _ _ _ _ (by omega)
  | succ j' ih =>
    cases nb with
    | zero => omega
    | succ n =>
      rw [tile_succ,
        List.getD_append_right _ _ _ _ (by rw [hfd]; ring_nf; omega)]
      have hidx : (j' + 1) * np + t - fd.length = j' * np + t := by
        rw [hfd]; ring_nf; omega
      rw [hidx]
      exact ih n (by omega)

/-- Entry `t` of block `j`. -/
theorem getD_sliceB {α : Type} (x : List α) (d₀ : α) (np nb j t : ℕ)
    (hx : x.length = nb * np) (hj : j < nb) (ht : t < np) :
    (sliceB x np j).getD t d₀ = x.getD (j * np + t) d₀ := by
  have h1 : t < (sliceB x np j).length := by
    rw [length_sliceB x np nb j hj hx]; exact ht
  have h2 : j * np + t < x.length := by
    have ha : j * np + t < j * np + np := Nat.add_lt_add_left ht _
    have hb : j * np + np = (j + 1) * np := by ring
    have hc : (j + 1) * np ≤ nb * np := Nat.mul_le_mul_right np (by omega)
    omega
  rw [List.getD_eq_getElem _ _ h1, List.getD_eq_getElem _ _ h2]
  simp only [sliceB, List.getElem_take, List.getElem_drop]

/-- Block `j` of `x` op-combined with the tiled perturbation is block `j` of
`x` op-combined with the lone perturbation: tiling restricted to one series
is the per-series perturbation. -/
theorem sliceB_zipWith_tile (op : ℚ → ℚ → ℚ) (x fd : List ℚ) (np nb j : ℕ)
    (hfd : fd.length = np) (hx : x.length = nb * np) (hj : j < nb) :
    sliceB (List.zipWith op x (tile nb fd)) np j
      = List.zipWith op (sliceB x np j) fd := by
  have hzlen : (List.zipWith op x (tile nb fd)).length = nb * np := by
    rw [List.length_zipWith, length_tile, hfd, hx]
    omega
  refine List.ext_getElem ?_ (fun t h1 h2 => ?_)
  · rw [length_sliceB _ np nb j hj hzlen, List.length_zipWith,
      length_sliceB x np nb j hj hx, hfd]
    omega
  · have ht : t < np := by
      rw [length_sliceB _ np nb j hj hzlen] at h1; exact h1
    rw [← List.getD_eq_getElem _ 0 h1, ← List.getD_eq_getElem _ 0 h2,
      getD_sliceB _ 0 np nb j t hzlen hj ht]
    have hmt : j * np + t < (List.zipWith op x (tile nb fd)).length := by
      have ha : j * np + t < j * np + np := Nat.add_lt_add_left ht _
      have hb : j * np + np = (j + 1) * np := by ring
      have hc : (j + 1) * np ≤ nb * np := Nat.mul_le_mul_right np (by omega)
      omega
    have ht2 : t < (List.zipWith op (sliceB x np j) fd).length := by
      rw [List.length_zipWith, length_sliceB x np nb j hj hx, hfd]
      omega
    rw [List.getD_eq_getElem _ _ hmt, List.getD_eq_getElem _ _ ht2,
      List.getElem_zipWith, List.getElem_zipWith]
    rw [← List.getD_eq_getElem x 0, ← List.getD_eq_getElem (tile nb fd) 0,
      ← List.getD_eq_getElem (sliceB x np j) 0, ← List.getD_eq_getElem fd 0,
      getD_tile fd np nb j t hfd hj ht, getD_sliceB x 0 np nb j t hx hj ht]

/-- A block sliced out of a single-block vector is the vector itself. -/
theorem sliceB_self (z : List ℚ) (np : ℕ) (hz : z.length = np) :
    sliceB z np 0 = z := by
  rw [sliceB, Nat.zero_mul, List.drop_zero, ← hz, List.take_length]

/-- Entry `j*np + i` of the batched finite-difference gradient over a
separable batched likelihood is the central difference of series `j`'s own
likelihood at its own block, perturbed at index `i`. -/
theorem ll_gf_entry (L : ℕ → List ℚ → ℚ) (nb np : ℕ) (x : List ℚ) (h : ℚ)
    (hnp : 0 < np) (hx : x.length = nb * np) (j i : ℕ) (hj : j < nb)
    (hi : i < np) :
    (ll_gf (ll_f_sep L nb np) nb np x h).getD (j * np + i) 0
      = (L j (List.zipWith (· + ·) (sliceB x np j) (fd_at np i h))
          - L j (List.zipWith (· - ·) (sliceB x np j) (fd_at np i h)))
        / (2 * h) := by
  have hm : j * np + i < x.length := by
    have ha : j * np + i < j * np + np := Nat.add_lt_add_left hi _
    have hb : j * np + np = (j + 1) * np := by ring
    have hc : (j + 1) * np ≤ nb * np := Nat.mul_le_mul_right np (by omega)
    omega
  have hmod : (j * np + i) % np = i := by
    rw [show j * np + i = np * j + i by ring, Nat.mul_add_mod,
      Nat.mod_eq_of_lt hi]
  have hdiv : (j * np + i) / np = j := by
    rw [show j * np + i = i + np * j by ring, Nat.add_mul_div_left i j hnp,
      Nat.div_eq_of_lt hi, Nat.zero_add]
  have hfd : (fd_at np i h).length = np := by simp [fd_at]
  rw [List.getD_eq_getElem _ _ (by rw [ll_gf, List.length_ofFn]; exact hm)]
  simp only [ll_gf, List.getElem_ofFn, hmod, hdiv]
  have hjlen : j < (List.zipWith (fun a b => (a - b) / (2 * h))
      (ll_f_sep L nb np (List.zipWith (· + ·) x
        (tile nb (fd_at np i h))))
      (ll_f_sep L nb np (List.zipWith (· - ·) x
        (tile nb (fd_at np i h))))).length := by
    simp only [List.length_zipWith, ll_f_sep, List.length_ofFn]
    omega
  rw [List.getD_eq_getElem _ _ hjlen, List.getElem_zipWith]
  simp only [ll_f_sep, List.getElem_ofFn]
  rw [sliceB_zipWith_tile _ x (fd_at np i h) np nb j hfd hx hj,
    sliceB_zipWith_tile _ x (fd_at np i h) np nb j hfd hx hj]

/-- C1: over a separable batched log-likelihood (each series depends only on
its own block), `ll_gf` places at slot `i` of series `j` (flat position
`j*np + i`) the central finite difference of series `j`'s likelihood with the
perturbation tiled across the batch, and this equals the entry an independent
per-series run of `ll_gf` (batch of one, on block `j` alone) would produce:
one pair of batched evaluations per index, not one pair per series per
index. -/
theorem claim_C1 (L : ℕ → List ℚ → ℚ) (nb np : ℕ) (x : List ℚ) (h : ℚ)
    (hnp : 0 < np) (hx : x.length = nb * np) (j i : ℕ) (hj : j < nb)
    (hi : i < np) :
    (ll_gf (ll_f_sep L nb np) nb np x h).getD (j * np + i) 0
        = (L j (List.zipWith (· + ·) (sliceB x np j) (fd_at np i h))
            - L j (List.zipWith (· - ·) (sliceB x np j) (fd_at np i h)))
          / (2 * h) ∧
      (ll_gf (ll_f_sep L nb np) nb np x h).getD (j * np + i) 0
        = (ll_gf (ll_f_sep (fun _ => L j) 1 np) 1 np (sliceB x np j) h).getD i 0 := by
  have hblk : (sliceB x np j).length = 1 * np := by
    rw [length_sliceB x np nb j hj hx]; omega
  have hsingle := ll_gf_entry (fun _ => L j) 1 np (sliceB x np j) h hnp hblk
    0 i (by omega) hi
  rw [Nat.zero_mul, Nat.zero_add] at hsingle
  rw [sliceB_self (sliceB x np j) np (length_sliceB x np nb j hj hx)] at hsingle
  refine ⟨ll_gf_entry L nb np x h hnp hx j i hj hi, ?_⟩
  rw [ll_gf_entry L nb np x h hnp hx j i hj hi, hsingle]

/-- C1 witness: batch of two series with two parameters each,
`x = [1,2,3,4]`, `h = 1`, gradient slot `i = 0` of series `j = 1`, with each
series' likelihood being the sum of its own block. -/
theorem claim_C1_witness :
    (ll_gf (ll_f_sep (fun _ blk => blk.sum) 2 2) 2 2 [1, 2, 3, 4] 1).getD
          (1 * 2 + 0) 0
        = ((List.zipWith (· + ·) (sliceB [1, 2, 3, 4] 2 1) (fd_at 2 0 1)).sum
            - (List.zipWith (· - ·) (sliceB [1, 2, 3, 4] 2 1)
                (fd_at 2 0 1)).sum) / (2 * 1) ∧
      (ll_gf (ll_f_sep (fun _ blk => blk.sum) 2 2) 2 2 [1, 2, 3, 4] 1).getD
          (1 * 2 + 0) 0
        = (ll_gf (ll_f_sep (fun _ blk => blk.sum) 1 2) 1 2
            (sliceB [1, 2, 3, 4] 2 1) 1).getD 0 0 :=
  claim_C1 (fun _ blk => blk.sum) 2 2 [1, 2, 3, 4] 1 (by decide) (by decide)
    1 0 (by decide) (by decide)

/-! ## StationarityTransform: the Jones transform (C5)

`batch_trans` / `batch_invtrans` (batched_arima.pyx lines 340-365) and the
wrapper `batched_transform` (batched_kalman.pyx lines 94-126) delegate the
per-series coefficient transform to the C++ `batched_jones_transform`, which
is not among the sources; the transform itself is modelled from the spec
§4.2: partial autocorrelations `w_i = tanh(y_i)`, a Durbin-Levinson recursion
forward to build coefficients, the backward recursion plus `atanh` for the
inverse, and the same algorithm with negated sign convention for the MA
side. -/

/-- Inverse hyperbolic tangent, `atanh w = log((1+w)/(1-w)) / 2`. -/
noncomputable def atanh (w : ℝ) : ℝ := Real.log ((1 + w) / (1 - w)) / 2

/-- On `(-1, 1)`, `tanh` undoes `atanh`. -/
theorem tanh_atanh (w : ℝ) (hw : |w| < 1) : Real.tanh (atanh w) = w := by
  obtain ⟨hw1, hw2⟩ := abs_lt.mp hw
  have h1 : (0 : ℝ) < 1 - w := by linarith
  have h2 : (0 : ℝ) < 1 + w := by linarith
  have hexp2 : Real.exp (atanh w) ^ 2 = (1 + w) / (1 - w) := by
    rw [sq, ← Real.exp_add, atanh,
      show Real.log ((1 + w) / (1 - w)) / 2 + Real.log ((1 + w) / (1 - w)) / 2
        = Real.log ((1 + w) / (1 - w)) by ring]
    exact Real.exp_log (div_pos h2 h1)
  have hE : (0 : ℝ) < Real.exp (atanh w) := Real.exp_pos _
  have hEne : Real.exp (atanh w) ≠ 0 := ne_of_gt hE
  have hden : Real.exp (atanh w) + (Real.exp (atanh w))⁻¹ ≠ 0 := by positivity
  rw [Real.tanh_eq_sinh_div_cosh, Real.sinh_eq, Real.cosh_eq, Real.exp_neg,
    div_div_div_comm]
  norm_num
  rw [div_eq_iff hden]
  have h3 : Real.exp (atanh w) ^ 2 - 1 = w * (Real.exp (atanh w) ^ 2 + 1) := by
    rw [hexp2]
    field_simp
    ring
  field_simp
  linear_combination h3

/-- Modelled from the spec: one forward Durbin-Levinson step with sign
convention `s` (`s = -1` on the AR side, `s = +1` on the MA side): from the
previous coefficients `a` and the next partial autocorrelation `w`, the new
coefficients are `a_i + s*w*a_{reversed i}` with `w` appended. -/
def levStep (s : ℝ) (a : List ℝ) (w : ℝ) : List ℝ :=
  List.zipWith (fun u v => u + s * (w * v)) a a.reverse ++ [w]

/-- Modelled from the spec: the forward Durbin-Levinson recursion building a
coefficient vector from a list of partial autocorrelations. -/
def levForward (s : ℝ) (ws : List ℝ) : List ℝ := ws.foldl (levStep s) []

/-- Modelled from the spec: one backward Durbin-Levinson step, recovering the
previous coefficients from `a`, whose last entry is the current partial
autocorrelation. -/
noncomputable def levBackStep (s : ℝ) (a : List ℝ) : List ℝ :=
  List.zipWith
    (fun u v => (u - s * (a.getLastD 0 * v)) / (1 - a.getLastD 0 ^ 2))
    a.dropLast a.dropLast.reverse

/-- Modelled from the spec: the backward Durbin-Levinson recursion collecting
the partial autocorrelations of `a` (the fuel argument is the length). -/
noncomputable def levBackAux (s : ℝ) : ℕ → List ℝ → List ℝ
  | 0, _ => []
  | k + 1, a => levBackAux s k (levBackStep s a) ++ [a.getLastD 0]

/-- All partial autocorrelations of the coefficient vector `a`; the spec's
"strictly inside the stationary region" is `∀ w ∈ levBack s a, |w| < 1`. -/
noncomputable def levBack (s : ℝ) (a : List ℝ) : List ℝ :=
  levBackAux s a.length a

theorem length_levBackStep (s : ℝ) (a : List ℝ) :
    (levBackStep s a).length = a.length - 1 := by
  simp [levBackStep, List.length_zipWith, List.length_dropLast,
    List.length_reverse]

theorem length_levBackAux (s : ℝ) (k : ℕ) (a : List ℝ) :
    (levBackAux s k a).length = k := by
  induction k generalizing a with
  | zero => simp [levBackAux]
  | succ n ih => simp [levBackAux, ih]

/-- getD through a reversed list. -/
theorem getD_reverse {α : Type} (l : List α) (d₀ : α) (m : ℕ)
    (hm : m < l.length) :
    l.reverse.getD m d₀ = l.getD (l.length - 1 - m) d₀ := by
  rw [List.getD_eq_getElem _ _ (by simpa using hm), List.getElem_reverse,
    List.getD_eq_getElem _ _ (by omega)]

/-- getD through zipWith, inside both lengths. -/
theorem getD_zipWith {α : Type} (g : α → α → α) (u v : List α) (d₀ : α)
    (m : ℕ) (hu : m < u.length) (hv : m < v.length) :
    (List.zipWith g u v).getD m d₀ = g (u.getD m d₀) (v.getD m d₀) := by
  rw [List.getD_eq_getElem _ _ (by rw [List.length_zipWith]; omega),
    List.getElem_zipWith, List.getD_eq_getElem _ _ hu,
    List.getD_eq_getElem _ _ hv]

/-- Entries of one backward step. -/
theorem getD_levBackStep (s : ℝ) (a : List ℝ) (m : ℕ)
    (hm : m < a.length - 1) :
    (levBackStep s a).getD m 0
      = (a.dropLast.getD m 0
          - s * (a.getLastD 0 * a.dropLast.getD (a.length - 1 - 1 - m) 0))
        / (1 - a.getLastD 0 ^ 2) := by
  have hmd : m < a.dropLast.length := by
    rw [List.length_dropLast]; exact hm
  rw [levBackStep,
    getD_zipWith _ _ _ _ m hmd (by rw [List.length_reverse]; exact hmd),
    getD_reverse _ _ m hmd, List.length_dropLast]

/-- Undoing one backward step with the forward step restores the coefficient
vector, when `s = ±1` and the extracted partial autocorrelation is strictly
inside `(-1, 1)`. -/
theorem levStep_levBackStep (s : ℝ) (hs : s ^ 2 = 1) (a : List ℝ)
    (ha : a ≠ []) (hw : |a.getLastD 0| < 1) :
    levStep s (levBackStep s a) (a.getLastD 0) = a := by
  have hlast : a.getLastD 0 = a.getLast ha := by
    rw [List.getLastD_eq_getLast?, List.getLast?_eq_getLast _ ha]
    rfl
  have habs := abs_lt.mp hw
  have hw2 : (1 : ℝ) - a.getLastD 0 ^ 2 ≠ 0 := by
    nlinarith [habs.1, habs.2]
  have hbl : (levBackStep s a).length = a.length - 1 := length_levBackStep s a
  conv_rhs => rw [← List.dropLast_append_getLast ha]
  rw [levStep]
  congr 1
  · refine List.ext_getElem ?_ (fun i hi1 hi2 => ?_)
    · rw [List.length_zipWith, List.length_reverse, hbl,
        List.length_dropLast]
      omega
    · have hik : i < a.length - 1 := by
        rw [List.length_dropLast] at hi2
        exact hi2
      rw [← List.getD_eq_getElem _ 0 hi1, ← List.getD_eq_getElem _ 0 hi2]
      rw [getD_zipWith _ _ _ _ i (by omega) (by rw [List.length_reverse]; omega),
        getD_reverse _ _ i (by omega), hbl]
      rw [getD_levBackStep s a i hik,
        getD_levBackStep s a (a.length - 1 - 1 - i) (by omega)]
      have hidx : a.length - 1 - 1 - (a.length - 1 - 1 - i) = i := by omega
      rw [hidx]
      have hkey : ∀ X Y A W c : ℝ, c ≠ 0 →
          X + s * (W * Y) = A * c → X / c + s * (W * (Y / c)) = A := by
        intro X Y A W c hc hXY
        field_simp
        linarith [hXY]
      refine hkey _ _ _ _ _ hw2 ?_
      linear_combination
        (-(a.dropLast.getD i 0 * a.getLastD 0 ^ 2)) * hs
  · rw [hlast]

/-- Rebuilding with the forward recursion from the collected partial
autocorrelations restores the coefficient vector, provided every collected
partial autocorrelation is strictly inside `(-1, 1)`. -/
theorem levForward_levBackAux (s : ℝ) (hs : s ^ 2 = 1) :
    ∀ (k : ℕ) (a : List ℝ), a.length = k →
      (∀ w ∈ levBackAux s k a, |w| < 1) →
      levForward s (levBackAux s k a) = a := by
  intro k
  induction k with
  | zero =>
    intro a ha _
    have ha0 : a = [] := List.eq_nil_of_length_eq_zero ha
    subst ha0
    rfl
  | succ n ih =>
    intro a ha hw
    have hne : a ≠ [] := by
      intro hcon
      subst hcon
      simp at ha
    have haux : levBackAux s (n + 1) a
        = levBackAux s n (levBackStep s a) ++ [a.getLastD 0] := rfl
    have hstep_len : (levBackStep s a).length = n := by
      rw [length_levBackStep, ha]
      omega
    have hw' : ∀ w ∈ levBackAux s n (levBackStep s a), |w| < 1 := by
      intro w hwm
      exact hw w (by rw [haux]; exact List.mem_append_left _ hwm)
    have hwlast : |a.getLastD 0| < 1 :=
      hw _ (by rw [haux]; exact List.mem_append_right _ (List.mem_singleton.mpr rfl))
    have hb := ih (levBackStep s a) hstep_len hw'
    rw [haux, levForward, List.foldl_append]
    rw [levForward] at hb
    rw [hb]
    exact levStep_levBackStep s hs a hne hwlast

/-- The inverse-then-forward round trip on one coefficient block (real
arithmetic, hence exact). -/
theorem levForward_levBack (s : ℝ) (hs : s ^ 2 = 1) (a : List ℝ)
    (hw : ∀ w ∈ levBack s a, |w| < 1) :
    levForward s (levBack s a) = a :=
  levForward_levBackAux s hs a.length a rfl hw

/-- Modelled from the spec: the forward Jones transform of one block,
`tanh` into the forward Durbin-Levinson recursion. -/
noncomputable def jones_forward (s : ℝ) (y : List ℝ) : List ℝ :=
  levForward s (y.map Real.tanh)

/-- Modelled from the spec: the inverse Jones transform of one block, the
backward Durbin-Levinson recursion followed by `atanh`. -/
noncomputable def jones_inverse (s : ℝ) (c : List ℝ) : List ℝ :=
  (levBack s c).map atanh

/-- Forward after inverse is the identity on blocks strictly inside the
stationary (resp. invertible) region. -/
theorem jones_roundtrip (s : ℝ) (hs : s ^ 2 = 1) (c : List ℝ)
    (hc : ∀ w ∈ levBack s c, |w| < 1) :
    jones_forward s (jones_inverse s c) = c := by
  rw [jones_forward, jones_inverse, List.map_map]
  have hmap : (levBack s c).map (Real.tanh ∘ atanh) = levBack s c := by
    have h1 : (levBack s c).map (Real.tanh ∘ atanh) = (levBack s c).map id :=
      List.map_congr_left (fun w hwm => tanh_atanh w (hc w hwm))
    rw [h1, List.map_id]
  rw [hmap]
  exact levForward_levBack s hs c hc

theorem length_levStep (s : ℝ) (a : List ℝ) (w : ℝ) :
    (levStep s a w).length = a.length + 1 := by
  simp [levStep, List.length_zipWith, List.length_reverse]

theorem length_foldl_levStep (s : ℝ) :
    ∀ (ws : List ℝ) (b : List ℝ),
      (List.foldl (levStep s) b ws).length = b.length + ws.length := by
  intro ws
  induction ws with
  | nil => simp
  | cons w ws ih =>
    intro b
    rw [List.foldl_cons, ih, length_levStep]
    simp
    omega

theorem length_jones_forward (s : ℝ) (y : List ℝ) :
    (jones_forward s y).length = y.length := by
  rw [jones_forward, levForward, length_foldl_levStep]
  simp

theorem length_jones_inverse (s : ℝ) (c : List ℝ) :
    (jones_inverse s c).length = c.length := by
  simp [jones_inverse, levBack, length_levBackAux]

/-- Reading a list back entry-by-entry with `getD` rebuilds it. -/
theorem ofFn_getD_self {α : Type} (l : List α) (d₀ : α) (n : ℕ)
    (hl : l.length = n) :
    List.ofFn (fun i : Fin n => l.getD i.val d₀) = l := by
  refine List.ext_getElem (by simp [hl]) (fun m h1 h2 => ?_)
  rw [List.getElem_ofFn]
  exact List.getD_eq_getElem l d₀ h2

/-- getD inside block `ib` of a concatenation of constant-length blocks. -/
theorem getD_flatMap {α : Type} (f : ℕ → List α) (d₀ : α) (L nb ib t : ℕ)
    (hf : ∀ i, (f i).length = L) (hib : ib < nb) (ht : t < L) :
    ((List.range nb).flatMap f).getD (ib * L + t) d₀ = (f ib).getD t d₀ := by
  induction ib generalizing nb f with
  | zero =>
    cases nb with
    | zero => omega
    | succ n =>
      rw [List.range_succ_eq_map, List.flatMap_cons]
      simp only [Nat.zero_mul, Nat.zero_add]
      exact List.getD_append _ _ _ _ (by rw [hf 0]; omega)
  | succ ib' ih =>
    cases nb with
    | zero => omega
    | succ n =>
      have hL : (ib' + 1) * L = ib' * L + L := by ring
      rw [List.range_succ_eq_map, List.flatMap_cons,
        List.getD_append_right _ _ _ _ (by rw [hf 0]; omega)]
      have hmap : (List.map Nat.succ (List.range n)).flatMap f
          = (List.range n).flatMap (fun i => f (Nat.succ i)) := by
        rw [List.flatMap_map]
      have hidx : (ib' + 1) * L + t - (f 0).length = ib' * L + t := by
        rw [hf 0]
        omega
      rw [hidx, hmap]
      exact ih (fun i => f (Nat.succ i)) n (fun i => hf (Nat.succ i)) (by omega)

/-- Length of a concatenation of constant-length blocks. -/
theorem length_flatMap_const {α : Type} (f : ℕ → List α) (L nb : ℕ)
    (hf : ∀ i, (f i).length = L) :
    ((List.range nb).flatMap f).length = nb * L := by
  induction nb generalizing f with
  | zero => simp
  | succ n ih =>
    rw [List.range_succ_eq_map, List.flatMap_cons, List.length_append,
      hf 0]
    have hmap : (List.map Nat.succ (List.range n)).flatMap f
        = (List.range n).flatMap (fun i => f (Nat.succ i)) := by
      rw [List.flatMap_map]
    rw [hmap, ih (fun i => f (Nat.succ i)) (fun i => hf (Nat.succ i)),
      Nat.succ_mul]
    omega

/-- The `p` AR slots of series `ib` collected by the wrapper loop
(batched_kalman.pyx lines 102-104): `x[(d+p+q)*ib + d + ip]`. -/
def arBlock (p d q : ℕ) (x : List ℝ) (ib : ℕ) : List ℝ :=
  List.ofFn (fun ip : Fin p => x.getD ((d + p + q) * ib + d + ip.val) 0)

/-- The `q` MA slots of series `ib` collected by the wrapper loop
(batched_kalman.pyx lines 105-106): `x[(d+p+q)*ib + d + p + iq]`. -/
def maBlock (p d q : ℕ) (x : List ℝ) (ib : ℕ) : List ℝ :=
  List.ofFn (fun iq : Fin q => x.getD ((d + p + q) * ib + d + p + iq.val) 0)

/-- Modelled from the spec: the C++ `batched_jones_transform(p, q, batchSize,
isInv, ar, ma)` applies the Jones transform (forward or inverse) independently
to each series' `p` AR coefficients (sign `-1`) and `q` MA coefficients
(negated sign convention, `+1`), concatenating the per-series results in
batch order. -/
noncomputable def batched_jones_transform (p q nb : ℕ) (isInv : Bool)
    (ar ma : List ℝ) : List ℝ × List ℝ :=
  ((List.range nb).flatMap (fun ib =>
      if isInv then
        jones_inverse (-1)
          (List.ofFn (fun ip : Fin p => ar.getD (ib * p + ip.val) 0))
      else
        jones_forward (-1)
          (List.ofFn (fun ip : Fin p => ar.getD (ib * p + ip.val) 0))),
   (List.range nb).flatMap (fun ib =>
      if isInv then
        jones_inverse 1
          (List.ofFn (fun iq : Fin q => ma.getD (ib * q + iq.val) 0))
      else
        jones_forward 1
          (List.ofFn (fun iq : Fin q => ma.getD (ib * q + iq.val) 0))))

/-- Embedding of the wrapper `batched_transform` (batched_kalman.pyx lines
94-126): collect each series' AR and MA slots, run the Jones transform, then
build each output block from zeros by copying slot 0 of the input block and
writing the transformed AR slots at `d+ip` and MA slots at `d+p+iq` (the
later AR/MA writes win over the slot-0 copy on overlap, as in the source
where they are executed afterwards). -/
noncomputable def batched_transform (p d q nb : ℕ) (x : List ℝ)
    (isInv : Bool) : List ℝ :=
  (List.range nb).flatMap (fun ib =>
    List.ofFn (fun j : Fin (d + p + q) =>
      if d ≤ j.val ∧ j.val < d + p then
        (batched_jones_transform p q nb isInv
            ((List.range nb).flatMap (fun ib2 => arBlock p d q x ib2))
            ((List.range nb).flatMap (fun ib2 => maBlock p d q x ib2))).1.getD
          (ib * p + (j.val - d)) 0
      else if d + p ≤ j.val then
        (batched_jones_transform p q nb isInv
            ((List.range nb).flatMap (fun ib2 => arBlock p d q x ib2))
            ((List.range nb).flatMap (fun ib2 => maBlock p d q x ib2))).2.getD
          (ib * q + (j.val - d - p)) 0
      else if j.val = 0 then x.getD ((d + p + q) * ib) 0
      else 0))

/-- Embedding of `batch_trans` (batched_arima.pyx lines 340-350): the forward
transform. -/
noncomputable def batch_trans (p d q nb : ℕ) (x : List ℝ) : List ℝ :=
  batched_transform p d q nb x false

/-- Embedding of `batch_invtrans` (batched_arima.pyx lines 353-365): the
inverse transform. -/
noncomputable def batch_invtrans (p d q nb : ℕ) (x : List ℝ) : List ℝ :=
  batched_transform p d q nb x true

theorem length_batched_transform (p d q nb : ℕ) (x : List ℝ) (isInv : Bool) :
    (batched_transform p d q nb x isInv).length = nb * (d + p + q) :=
  length_flatMap_const _ (d + p + q) nb (fun _ => List.length_ofFn _)

/-- The first component of the batched Jones transform of the collected
blocks is the concatenation of the per-series transformed AR blocks. -/
theorem bjt_fst (p d q nb : ℕ) (x : List ℝ) (isInv : Bool) :
    (batched_jones_transform p q nb isInv
        ((List.range nb).flatMap (fun ib2 => arBlock p d q x ib2))
        ((List.range nb).flatMap (fun ib2 => maBlock p d q x ib2))).1
      = (List.range nb).flatMap (fun ib =>
          if isInv then jones_inverse (-1) (arBlock p d q x ib)
          else jones_forward (-1) (arBlock p d q x ib)) := by
  rw [batched_jones_transform]
  refine List.flatMap_congr (fun ib hib => ?_)
  have hofn : List.ofFn (fun ip : Fin p =>
      ((List.range nb).flatMap (fun ib2 => arBlock p d q x ib2)).getD
        (ib * p + ip.val) 0) = arBlock p d q x ib := by
    refine Eq.trans ?_ (ofFn_getD_self (arBlock p d q x ib) 0 p
      (by simp [arBlock]))
    exact congrArg List.ofFn (funext fun ip =>
      getD_flatMap _ 0 p nb ib ip.val (fun i => by simp [arBlock])
        (List.mem_range.mp hib) ip.isLt)
  rw [hofn]

/-- The second component is the concatenation of the per-series transformed
MA blocks. -/
theorem bjt_snd (p d q nb : ℕ) (x : List ℝ) (isInv : Bool) :
    (batched_jones_transform p q nb isInv
        ((List.range nb).flatMap (fun ib2 => arBlock p d q x ib2))
        ((List.range nb).flatMap (fun ib2 => maBlock p d q x ib2))).2
      = (List.range nb).flatMap (fun ib =>
          if isInv then jones_inverse 1 (maBlock p d q x ib)
          else jones_forward 1 (maBlock p d q x ib)) := by
  rw [batched_jones_transform]
  refine List.flatMap_congr (fun ib hib => ?_)
  have hofn : List.ofFn (fun iq : Fin q =>
      ((List.range nb).flatMap (fun ib2 => maBlock p d q x ib2)).getD
        (ib * q + iq.val) 0) = maBlock p d q x ib := by
    refine Eq.trans ?_ (ofFn_getD_self (maBlock p d q x ib) 0 q
      (by simp [maBlock]))
    exact congrArg List.ofFn (funext fun iq =>
      getD_flatMap _ 0 q nb ib iq.val (fun i => by simp [maBlock])
        (List.mem_range.mp hib) iq.isLt)
  rw [hofn]

/-- Entry `j` of output block `ib` of the wrapper, expressed through the
per-series transformed blocks. -/
theorem batched_transform_getD (p d q nb : ℕ) (x : List ℝ) (isInv : Bool)
    (ib j : ℕ) (hib : ib < nb) (hj : j < d + p + q) :
    (batched_transform p d q nb x isInv).getD (ib * (d + p + q) + j) 0
      = if d ≤ j ∧ j < d + p then
          ((if isInv then jones_inverse (-1) (arBlock p d q x ib)
            else jones_forward (-1) (arBlock p d q x ib))).getD (j - d) 0
        else if d + p ≤ j then
          ((if isInv then jones_inverse 1 (maBlock p d q x ib)
            else jones_forward 1 (maBlock p d q x ib))).getD (j - d - p) 0
        else if j = 0 then x.getD ((d + p + q) * ib) 0
        else 0 := by
  rw [batched_transform,
    getD_flatMap _ 0 (d + p + q) nb ib j (fun _ => List.length_ofFn _) hib hj,
    List.getD_eq_getElem _ _ (by simp [hj]), List.getElem_ofFn]
  by_cases h1 : d ≤ j ∧ j < d + p
  · rw [if_pos h1, if_pos h1, bjt_fst,
      getD_flatMap _ 0 p nb ib (j - d)
        (fun i => by cases isInv <;>
          simp [length_jones_inverse, length_jones_forward, arBlock])
        hib (by omega)]
  · rw [if_neg h1, if_neg h1]
    by_cases h2 : d + p ≤ j
    · rw [if_pos h2, if_pos h2, bjt_snd,
        getD_flatMap _ 0 q nb ib (j - d - p)
          (fun i => by cases isInv <;>
            simp [length_jones_inverse, length_jones_forward, maBlock])
          hib (by omega)]
    · rw [if_neg h2, if_neg h2]

/-- Slot 0 of every series' block (the `mu` entry when `d > 0`) is copied
unchanged by the wrapper, in either direction. -/
theorem mu_entry (p d q nb : ℕ) (x : List ℝ) (isInv : Bool) (ib : ℕ)
    (hib : ib < nb) (hd : 0 < d) :
    (batched_transform p d q nb x isInv).getD ((d + p + q) * ib) 0
      = x.getD ((d + p + q) * ib) 0 := by
  have h0 : (d + p + q) * ib = ib * (d + p + q) + 0 := by ring
  rw [h0, batched_transform_getD p d q nb x isInv ib 0 hib (by omega)]
  rw [if_neg (by omega), if_neg (by omega), if_pos rfl, ← h0]

/-- Collecting the AR slots of a transformed batch recovers the per-series
transformed AR block. -/
theorem arBlock_batched_transform (p d q nb : ℕ) (x : List ℝ) (isInv : Bool)
    (ib : ℕ) (hib : ib < nb) :
    arBlock p d q (batched_transform p d q nb x isInv) ib
      = (if isInv then jones_inverse (-1) (arBlock p d q x ib)
         else jones_forward (-1) (arBlock p d q x ib)) := by
  rw [arBlock]
  refine Eq.trans ?_ (ofFn_getD_self _ 0 p (by cases isInv <;>
    simp [length_jones_inverse, length_jones_forward, arBlock]))
  refine congrArg List.ofFn (funext fun ip => ?_)
  have hidx : (d + p + q) * ib + d + ip.val
      = ib * (d + p + q) + (d + ip.val) := by ring
  have hiplt : ip.val < p := ip.isLt
  rw [hidx, batched_transform_getD p d q nb x isInv ib (d + ip.val) hib
    (by omega)]
  rw [if_pos ⟨by omega, by omega⟩]
  congr 1
  omega

/-- Collecting the MA slots of a transformed batch recovers the per-series
transformed MA block. -/
theorem maBlock_batched_transform (p d q nb : ℕ) (x : List ℝ) (isInv : Bool)
    (ib : ℕ) (hib : ib < nb) :
    maBlock p d q (batched_transform p d q nb x isInv) ib
      = (if isInv then jones_inverse 1 (maBlock p d q x ib)
         else jones_forward 1 (maBlock p d q x ib)) := by
  rw [maBlock]
  refine Eq.trans ?_ (ofFn_getD_self _ 0 q (by cases isInv <;>
    simp [length_jones_inverse, length_jones_forward, maBlock]))
  refine congrArg List.ofFn (funext fun iq => ?_)
  have hidx : (d + p + q) * ib + d + p + iq.val
      = ib * (d + p + q) + (d + p + iq.val) := by ring
  have hiqlt : iq.val < q := iq.isLt
  rw [hidx, batched_transform_getD p d q nb x isInv ib (d + p + iq.val) hib
    (by omega)]
  rw [if_neg (by omega), if_pos (by omega)]
  congr 1
  omega

/-- C5: for every order `p ∈ {1..4}` (and MA order `q ≤ 4`), batch size `nb`,
difference count `d ≤ 1`, and batched parameter vector `x` each of whose
series' AR and MA blocks is strictly inside the stationary resp. invertible
region (all backward-recursion partial autocorrelations in `(-1,1)`),
applying `batch_invtrans` then `batch_trans` returns `x` exactly — in real
arithmetic, hence within any floating tolerance — independently for each
series, and both directions copy slot 0 (the `mu` entry when `d > 0`) of
every series' block unchanged. -/
theorem claim_C5 (p d q nb : ℕ) (x : List ℝ)
    (hp1 : 1 ≤ p) (hp4 : p ≤ 4) (hq4 : q ≤ 4) (hd : d ≤ 1)
    (hx : x.length = nb * (d + p + q))
    (har : ∀ ib, ib < nb → ∀ w ∈ levBack (-1) (arBlock p d q x ib), |w| < 1)
    (hma : ∀ ib, ib < nb → ∀ w ∈ levBack 1 (maBlock p d q x ib), |w| < 1) :
    batch_trans p d q nb (batch_invtrans p d q nb x) = x ∧
    ∀ ib, ib < nb → 0 < d →
      (batch_invtrans p d q nb x).getD ((d + p + q) * ib) 0
          = x.getD ((d + p + q) * ib) 0 ∧
        (batch_trans p d q nb x).getD ((d + p + q) * ib) 0
          = x.getD ((d + p + q) * ib) 0 := by
  have hs1 : ((-1 : ℝ)) ^ 2 = 1 := by norm_num
  have hs2 : ((1 : ℝ)) ^ 2 = 1 := by norm_num
  have hnp0 : 0 < d + p + q := by omega
  constructor
  · refine List.ext_getElem ?_ (fun m hm1 hm2 => ?_)
    · rw [batch_trans, length_batched_transform, hx]
    · have hmlen : m < nb * (d + p + q) := by
        rw [batch_trans, length_batched_transform] at hm1
        exact hm1
      have hib : m / (d + p + q) < nb := by
        rw [Nat.div_lt_iff_lt_mul hnp0]
        have hcm : nb * (d + p + q) = (d + p + q) * nb := by ring
        omega
      have hjlt : m % (d + p + q) < d + p + q := Nat.mod_lt _ hnp0
      have hm_eq : m = m / (d + p + q) * (d + p + q) + m % (d + p + q) := by
        have hdm := Nat.div_add_mod m (d + p + q)
        have hcm : (d + p + q) * (m / (d + p + q))
            = m / (d + p + q) * (d + p + q) := by ring
        omega
      rw [← List.getD_eq_getElem _ 0 hm1, ← List.getD_eq_getElem _ 0 hm2]
      conv_lhs => rw [hm_eq]
      conv_rhs => rw [hm_eq]
      rw [batch_trans, batch_invtrans,
        batched_transform_getD p d q nb _ false (m / (d + p + q))
          (m % (d + p + q)) hib hjlt]
      by_cases h1 : d ≤ m % (d + p + q) ∧ m % (d + p + q) < d + p
      · rw [if_pos h1, if_neg (show ¬(false = true) by simp),
          arBlock_batched_transform p d q nb x true (m / (d + p + q)) hib,
          if_pos rfl,
          jones_roundtrip (-1) hs1 _ (har (m / (d + p + q)) hib)]
        rw [arBlock, List.getD_eq_getElem _ _
          (by rw [List.length_ofFn]; omega), List.getElem_ofFn]
        dsimp only
        rw [List.getD_eq_getElem x 0 (by
          have hcm : nb * (d + p + q) = (d + p + q) * nb := by ring
          have hle : (d + p + q) * (m / (d + p + q)) + (d + p + q)
              ≤ (d + p + q) * nb := by
            have := Nat.mul_le_mul_left (d + p + q) hib
            calc (d + p + q) * (m / (d + p + q)) + (d + p + q)
                = (d + p + q) * (m / (d + p + q) + 1) := by ring
            _ ≤ (d + p + q) * nb := Nat.mul_le_mul_left (d + p + q) (by omega)
          rw [hx]
          omega)]
        rw [List.getD_eq_getElem x 0 (by
          have hcm : (d + p + q) * (m / (d + p + q))
              = m / (d + p + q) * (d + p + q) := by ring
          rw [hx]
          have hcm2 : nb * (d + p + q) = (d + p + q) * nb := by ring
          have hle : m / (d + p + q) * (d + p + q) + (d + p + q)
              ≤ (d + p + q) * nb := by
            calc m / (d + p + q) * (d + p + q) + (d + p + q)
                = (d + p + q) * (m / (d + p + q) + 1) := by ring
            _ ≤ (d + p + q) * nb := Nat.mul_le_mul_left (d + p + q) (by omega)
          omega)]
        congr 1
        have hcm : (d + p + q) * (m / (d + p + q))
            = m / (d + p + q) * (d + p + q) := by ring
        omega
      · rw [if_neg h1]
        by_cases h2 : d + p ≤ m % (d + p + q)
        · rw [if_pos h2, if_neg (show ¬(false = true) by simp),
            maBlock_batched_transform p d q nb x true (m / (d + p + q)) hib,
            if_pos rfl,
            jones_roundtrip 1 hs2 _ (hma (m / (d + p + q)) hib)]
          rw [maBlock, List.getD_eq_getElem _ _
            (by rw [List.length_ofFn]; omega), List.getElem_ofFn]
          dsimp only
          rw [List.getD_eq_getElem x 0 (by
            rw [hx]
            have hle : (d + p + q) * (m / (d + p + q)) + (d + p + q)
                ≤ (d + p + q) * nb := by
              calc (d + p + q) * (m / (d + p + q)) + (d + p + q)
                  = (d + p + q) * (m / (d + p + q) + 1) := by ring
              _ ≤ (d + p + q) * nb := Nat.mul_le_mul_left (d + p + q) (by omega)
            have hcm2 : nb * (d + p + q) = (d + p + q) * nb := by ring
            omega)]
          rw [List.getD_eq_getElem x 0 (by
            rw [hx]
            have hcm : (d + p + q) * (m / (d + p + q))
                = m / (d + p + q) * (d + p + q) := by ring
            have hle : m / (d + p + q) * (d + p + q) + (d + p + q)
                ≤ (d + p + q) * nb := by
              calc m / (d + p + q) * (d + p + q) + (d + p + q)
                  = (d + p + q) * (m / (d + p + q) + 1) := by ring
              _ ≤ (d + p + q) * nb := Nat.mul_le_mul_left (d + p + q) (by omega)
            have hcm2 : nb * (d + p + q) = (d + p + q) * nb := by ring
            omega)]
          congr 1
          have hcm : (d + p + q) * (m / (d + p + q))
              = m / (d + p + q) * (d + p + q) := by ring
          omega
        · rw [if_neg h2]
          have hj0 : m % (d + p + q) = 0 := by omega
          have hd1 : 0 < d := by omega
          rw [if_pos hj0, mu_entry p d q nb x true (m / (d + p + q)) hib hd1]
          congr 1
          have hcm : (d + p + q) * (m / (d + p + q))
              = m / (d + p + q) * (d + p + q) := by ring
          omega
  · intro ib hib hd0
    exact ⟨by rw [batch_invtrans]; exact mu_entry p d q nb x true ib hib hd0,
      by rw [batch_trans]; exact mu_entry p d q nb x false ib hib hd0⟩

/-- C5 witness: one series with `(p,d,q) = (1,1,1)` and block
`[mu, ar, ma] = [2, 1/2, 1/3]`, both coefficients strictly inside `(-1,1)`. -/
theorem claim_C5_witness :
    batch_trans 1 1 1 1 (batch_invtrans 1 1 1 1 [2, 1 / 2, 1 / 3])
        = [2, 1 / 2, 1 / 3] ∧
      ∀ ib, ib < 1 → 0 < 1 →
        (batch_invtrans 1 1 1 1 [2, 1 / 2, 1 / 3]).getD ((1 + 1 + 1) * ib) 0
            = ([2, 1 / 2, 1 / 3] : List ℝ).getD ((1 + 1 + 1) * ib) 0 ∧
          (batch_trans 1 1 1 1 [2, 1 / 2, 1 / 3]).getD ((1 + 1 + 1) * ib) 0
            = ([2, 1 / 2, 1 / 3] : List ℝ).getD ((1 + 1 + 1) * ib) 0 :=
  claim_C5 1 1 1 1 [2, 1 / 2, 1 / 3] (by norm_num) (by norm_num) (by norm_num)
    (by norm_num) rfl
    (fun ib hib w hw => by
      have hib0 : ib = 0 := by omega
      subst hib0
      rw [show levBack (-1) (arBlock 1 1 1 [2, 1 / 2, 1 / 3] 0)
          = [1 / 2] from rfl, List.mem_singleton] at hw
      subst hw
      rw [abs_lt]
      constructor <;> norm_num)
    (fun ib hib w hw => by
      have hib0 : ib = 0 := by omega
      subst hib0
      rw [show levBack 1 (maBlock 1 1 1 [2, 1 / 2, 1 / 3] 0)
          = [1 / 3] from rfl, List.mem_singleton] at hw
      subst hw
      rw [abs_lt]
      constructor <;> norm_num)

end CumlTS
